import Mathlib

/-!
Verification of the release-tools program (release.py): a shallow embedding of
the version-tag model (class Tag, regex tag_cre), the constant-block patcher
(constant_replace), the fatal-error helper (error) and the scoped-directory
helper (changed_dir), together with theorems settling the specified claims.
-/

set_option maxHeartbeats 1000000

namespace Release

/-- One decimal digit character, as produced by Python integer formatting. -/
def digitChar (d : Nat) : Char :=
  match d with
  | 0 => '0'
  | 1 => '1'
  | 2 => '2'
  | 3 => '3'
  | 4 => '4'
  | 5 => '5'
  | 6 => '6'
  | 7 => '7'
  | 8 => '8'
  | 9 => '9'
  | _ => '*'

/-- Decimal rendering of a natural number (the embedding of Python or C
    decimal formatting of a non-negative int), with explicit fuel so that it
    evaluates by kernel reduction. -/
def natCharsAux : Nat → Nat → List Char
  | 0, _ => []
  | fuel + 1, n =>
    if n < 10 then [digitChar n]
    else natCharsAux fuel (n / 10) ++ [digitChar (n % 10)]

/-- Decimal rendering of a natural number as a character list. -/
def natChars (n : Nat) : List Char := natCharsAux (n + 1) n

/-- Decimal rendering of a natural number as a string. -/
def natStr (n : Nat) : String := String.mk (natChars n)

/-- Numeric value of a digit string: the embedding of Python int applied to a
    captured digit group. -/
def digitsVal (ds : List Char) : Nat := ds.foldl (fun a c => a * 10 + (c.toNat - 48)) 0

/-- Greedy digit prefix, embedding a regex group of one or more digits. -/
def spanDigits : List Char → List Char × List Char
  | [] => ([], [])
  | c :: r =>
    if c.isDigit then ((spanDigits r).1.cons c, (spanDigits r).2)
    else ([], c :: r)

/-- The regex end anchor in default mode: it matches at the very end of the
    input and also just before one final newline character. -/
def atDollar : List Char → Bool
  | [] => true
  | c :: r => c = '\n' && r = []

/-- The level alternation of tag_cre: a single letter a or b, or the two
    letters rc. -/
def parseLevel (r : List Char) : Option (String × List Char) :=
  match r with
  | [] => none
  | c :: r1 =>
    if c = 'a' then some ("a", r1)
    else if c = 'b' then some ("b", r1)
    else if c = 'r' then
      match r1 with
      | [] => none
      | c2 :: r2 => if c2 = 'c' then some ("rc", r2) else none
    else none

/-- The optional minor and patch groups of tag_cre: a dot followed by digits,
    then optionally another dot followed by digits.  Returns the two captured
    groups and the remaining input; when a group fails, nothing is consumed by
    it, exactly as a failed optional regex group consumes nothing. -/
def parseOptMMP (r : List Char) : Option (List Char) × Option (List Char) × List Char :=
  match r with
  | '.' :: r0 =>
    let p1 := spanDigits r0
    if p1.1 = [] then (none, none, r)
    else
      match p1.2 with
      | '.' :: r1 =>
        let p2 := spanDigits r1
        if p2.1 = [] then (some p1.1, none, p1.2)
        else (some p1.1, some p2.1, p2.2)
      | _ => (some p1.1, none, p1.2)
  | _ => (none, none, r)

/-- The optional level and serial group of tag_cre: level code then digits;
    when either part fails the whole group consumes nothing. -/
def parseOptLS (r : List Char) : Option (String × List Char) × List Char :=
  match parseLevel r with
  | none => (none, r)
  | some lvr =>
    let p := spanDigits lvr.2
    if p.1 = [] then (none, r) else (some (lvr.1, p.1), p.2)

/-- The capture groups of tag_cre.  The level and serial groups are paired,
    since in every match of the regex they are both absent or both present. -/
structure RawGroups where
  g0 : List Char
  g1 : Option (List Char)
  g2 : Option (List Char)
  g34 : Option (String × List Char)
  deriving Repr, DecidableEq

/-- The embedding of tag_cre matching: digits, optional dot-minor and
    dot-patch groups, optional level-serial group, then the end anchor. -/
def tagMatch (s : List Char) : Option RawGroups :=
  let p0 := spanDigits s
  if p0.1 = [] then none
  else
    let mmp := parseOptMMP p0.2
    let ls := parseOptLS mmp.2.2
    if atDollar ls.2 then some ⟨p0.1, mmp.1, mmp.2.1, ls.1⟩ else none

/-- The release identifier built by Tag.__init__ from a successful match. -/
structure Tag where
  major : Nat
  minor : Nat
  patch : Nat
  level : String
  serial : Nat
  is_final : Bool
  text : String
  basic_version : String
  deriving Repr, DecidableEq

/-- Numeric value of an optional captured group: an absent group counts as
    zero, exactly as Tag.__init__ turns a missing group into 0. -/
def optVal : Option (List Char) → Nat
  | none => 0
  | some d => digitsVal d

/-- Level code of the optional level-serial group: absent means f (final). -/
def levelOf : Option (String × List Char) → String
  | none => "f"
  | some x => x.1

/-- Serial of the optional level-serial group: absent means zero. -/
def serialOf : Option (String × List Char) → Nat
  | none => 0
  | some x => digitsVal x.2

/-- Finality flag: the release is final exactly when the level group is
    absent. -/
def finalOf : Option (String × List Char) → Bool
  | none => true
  | some _ => false

/-- The field assignments of Tag.__init__ after a successful regex match:
    a missing level group means a final release with level code f; missing
    numeric groups default to zero; the normalized text and the two-component
    basic version are rendered from the numeric fields. -/
def Tag.ofGroups (g : RawGroups) : Tag :=
  { major := digitsVal g.g0, minor := optVal g.g1, patch := optVal g.g2,
    level := levelOf g.g34, serial := serialOf g.g34, is_final := finalOf g.g34,
    text := natStr (digitsVal g.g0) ++ "." ++ natStr (optVal g.g1) ++ "." ++
      natStr (optVal g.g2) ++
      (if levelOf g.g34 = "f" then "" else levelOf g.g34 ++ natStr (serialOf g.g34)),
    basic_version := natStr (digitsVal g.g0) ++ "." ++ natStr (optVal g.g1) }

/-- Parsing a tag string: match the regex and build the release identifier. -/
def parseTag (s : String) : Option Tag := (tagMatch s.data).map Tag.ofGroups

/-- The nickname property of Tag: the normalized text with every dot
    removed. -/
def Tag.nickname (t : Tag) : String := String.mk (t.text.data.filter (fun c => c ≠ '.'))

/-- The hgname property of Tag: the letter v prepended to the text. -/
def Tag.hgname (t : Tag) : String := "v" ++ t.text

/-- The observable behaviour of the error helper: a fixed banner line and the
    given messages on the error stream, then process exit with status one. -/
structure ErrOut where
  stderrLines : List String
  exitCode : Nat
  deriving Repr, DecidableEq

/-- The error helper: print a fixed banner then every message to the error
    stream and exit with a non-zero status. -/
def error (msgs : List String) : ErrOut :=
  { stderrLines := "**ERROR**" :: msgs, exitCode := 1 }

/-- Tag construction including the fatal-failure path of Tag.__init__: a lone
    dot is first replaced by the base name of the current directory; an input
    the regex rejects causes the error helper to run with a message naming the
    offending string. -/
def tagInit (cwdBase : String) (tag_name : String) : Except ErrOut Tag :=
  let name := if tag_name = "." then cwdBase else tag_name
  match tagMatch name.data with
  | none => Except.error (error ["tag " ++ name ++ " is not valid"])
  | some g => Except.ok (Tag.ofGroups g)

/-- Whether a character list starts with a digit. -/
def headDigit : List Char → Bool
  | [] => false
  | c :: _ => c.isDigit

/-! ### The constant-block patcher -/

/-- The start marker line text built by constant_replace from the caller's
    comment pair. -/
def startTag (cs ce : List Char) : List Char := cs ++ ("--start constants--").data ++ ce

/-- The end marker line text built by constant_replace from the caller's
    comment pair. -/
def endTag (cs ce : List Char) : List Char := cs ++ ("--end constants--").data ++ ce

/-- Python text-file iteration: split the content into lines, each keeping
    its terminating newline; a final segment without a newline is still a
    line of its own. -/
def pyLines : List Char → List (List Char)
  | [] => []
  | c :: r =>
    if c = '\n' then ['\n'] :: pyLines r
    else
      match pyLines r with
      | [] => [[c]]
      | l :: ls => (c :: l) :: ls

/-- The line loop of constant_replace: state is the found and waiting flags
    and the text written so far.  A line equal to the start marker after its
    last character is removed emits the marker, the replacement blob and the
    end marker, each followed by a newline, and sets both flags; a line
    matching the end marker only clears the waiting flag; while waiting,
    lines are discarded; any other line is copied verbatim. -/
def crLoop (st et updated : List Char) :
    List (List Char) → Bool → Bool → List Char → List Char × Bool
  | [], found, _, acc => (acc, found)
  | l :: rest, found, waiting, acc =>
    if l.dropLast = st then
      crLoop st et updated rest true true
        (acc ++ (st ++ '\n' :: (updated ++ '\n' :: (et ++ ['\n']))))
    else if l.dropLast = et then
      crLoop st et updated rest found false acc
    else if waiting then
      crLoop st et updated rest found waiting acc
    else
      crLoop st et updated rest found waiting (acc ++ l)

/-- The pure content transformation of constant_replace: the text written to
    the sibling new file when the start marker was found, and none for the
    MissingDelimiters failure. -/
def constant_replace_core (content updated cs ce : List Char) : Option (List Char) :=
  let r := crLoop (startTag cs ce) (endTag cs ce) updated (pyLines content) false false []
  if r.2 then some r.1 else none

/-- A file system: file contents addressed by path, none meaning no file. -/
def FS : Type := String → Option (List Char)

/-- Point update of a file system. -/
def FS.update (fs : FS) (p : String) (v : Option (List Char)) : FS :=
  fun q => if q = p then v else fs q

/-- constant_replace at the file-system level: read the file, write the
    filtered text to the sibling path with suffix .new, then either rename
    the sibling over the original (start marker found) or fail through the
    error helper, which exits the process and leaves the sibling file
    behind.  none models the unhandled exception when the file does not
    exist. -/
def constant_replace (fs : FS) (fn : String) (updated cs ce : List Char) :
    Option (FS × Option ErrOut) :=
  match fs fn with
  | none => none
  | some content =>
    let r := crLoop (startTag cs ce) (endTag cs ce) updated (pyLines content) false false []
    let fs1 := FS.update fs (fn ++ ".new") (some r.1)
    if r.2 then
      some (FS.update (FS.update fs1 fn (some r.1)) (fn ++ ".new") none, none)
    else
      some (fs1, some (error ["Constant section delimiters not found: " ++ fn]))

/-- A one-file file system: a file without the marker region, used as a
    concrete input for the patcher. -/
def fsExample : FS := fun q => if q = "f.c" then some ("x\n".data) else none

/-- A one-file file system: a file with a well-formed marker region. -/
def fsExample2 : FS :=
  fun q => if q = "g.c" then
    some ("A\n/*--start constants--*/\nOLD\n/*--end constants--*/\nB\n".data)
  else none

/-- A one-file file system: the start marker is the last line of the file
    and has no trailing newline. -/
def fsExample3 : FS :=
  fun q => if q = "h.c" then some ("x\n/*--start constants--*/".data) else none

/-! ### The scoped-directory helper -/

/-- The way a with-block body finishes: normal completion, an exception
    propagating out, or an early return. -/
inductive ExitPath where
  | normal : ExitPath
  | raised : ExitPath
  | earlyReturn : ExitPath
  deriving Repr, DecidableEq

/-- Process state observed by changed_dir: the current working directory
    plus an arbitrary event log standing for everything else the body may
    do. -/
structure PState where
  cwd : String
  events : List String
  deriving Repr, DecidableEq

/-- The embedding of os.getcwd. -/
def os_getcwd (s : PState) : String := s.cwd

/-- The embedding of os.chdir. -/
def os_chdir (d : String) (s : PState) : PState := { s with cwd := d }

/-- The changed_dir context manager: record the old directory, change into
    the new one, run the body, and in a finally block change back to the old
    directory no matter how the body finished. -/
def changed_dir (new : String) (body : PState → PState × ExitPath) (s : PState) :
    PState × ExitPath :=
  let old := os_getcwd s
  let s1 := os_chdir new s
  let r := body s1
  (os_chdir old r.1, r.2)

/-! ### Decimal rendering lemmas -/

theorem digitChar_isDigit (d : Nat) (h : d < 10) : (digitChar d).isDigit = true := by
  interval_cases d <;> decide

theorem digitChar_toNat_sub (d : Nat) (h : d < 10) : (digitChar d).toNat - 48 = d := by
  interval_cases d <;> decide

theorem natCharsAux_ne_nil (fuel n : Nat) (h : n < fuel) : natCharsAux fuel n ≠ [] := by
  cases fuel with
  | zero => omega
  | succ f =>
    rw [natCharsAux]
    split
    · simp
    · simp

theorem natCharsAux_digits (fuel : Nat) : ∀ n, n < fuel → ∀ c ∈ natCharsAux fuel n, c.isDigit := by
  induction fuel with
  | zero => intro n h; omega
  | succ f ih =>
    intro n h c hc
    rw [natCharsAux] at hc
    split at hc
    · rcases List.mem_singleton.mp hc with rfl
      exact digitChar_isDigit n (by omega)
    · rcases List.mem_append.mp hc with h1 | h1
      · exact ih (n / 10) (by omega) c h1
      · rcases List.mem_singleton.mp h1 with rfl
        exact digitChar_isDigit (n % 10) (Nat.mod_lt n (by omega))

theorem digitsVal_concat (l : List Char) (c : Char) :
    digitsVal (l ++ [c]) = digitsVal l * 10 + (c.toNat - 48) := by
  simp [digitsVal, List.foldl_append]

theorem digitsVal_natCharsAux (fuel : Nat) :
    ∀ n, n < fuel → digitsVal (natCharsAux fuel n) = n := by
  induction fuel with
  | zero => intro n h; omega
  | succ f ih =>
    intro n h
    rw [natCharsAux]
    split
    · rename_i h10
      simp only [digitsVal, List.foldl_cons, List.foldl_nil, Nat.zero_mul, Nat.zero_add]
      exact digitChar_toNat_sub n h10
    · rw [digitsVal_concat, ih (n / 10) (by omega),
        digitChar_toNat_sub (n % 10) (Nat.mod_lt n (by omega))]
      omega

theorem natChars_ne_nil (n : Nat) : natChars n ≠ [] :=
  natCharsAux_ne_nil (n + 1) n (Nat.lt_succ_self n)

theorem natChars_digits (n : Nat) : ∀ c ∈ natChars n, c.isDigit :=
  natCharsAux_digits (n + 1) n (Nat.lt_succ_self n)

theorem digitsVal_natChars (n : Nat) : digitsVal (natChars n) = n :=
  digitsVal_natCharsAux (n + 1) n (Nat.lt_succ_self n)

theorem natStr_data (n : Nat) : (natStr n).data = natChars n := rfl

theorem data_append (a b : String) : (a ++ b).data = a.data ++ b.data := rfl

theorem dot_data : ("." : String).data = ['.'] := rfl

theorem empty_data : ("" : String).data = [] := rfl

/-! ### Matching lemmas -/

theorem spanDigits_append (dl r : List Char) (h1 : ∀ c ∈ dl, c.isDigit)
    (h2 : headDigit r = false) : spanDigits (dl ++ r) = (dl, r) := by
  induction dl with
  | nil =>
    simp only [List.nil_append]
    cases r with
    | nil => rfl
    | cons c r' =>
      simp only [headDigit] at h2
      rw [spanDigits, if_neg (by simp [h2])]
  | cons c dl' ih =>
    have hc : c.isDigit := h1 c (by simp)
    have ih' := ih (fun x hx => h1 x (by simp [hx]))
    simp only [List.cons_append]
    rw [spanDigits, if_pos hc, ih']

theorem spanDigits_natChars (n : Nat) : spanDigits (natChars n) = (natChars n, []) := by
  have h := spanDigits_append (natChars n) [] (fun c hc => natChars_digits n c hc) rfl
  simpa using h

theorem parseOptLS_nil : parseOptLS [] = (none, []) := rfl

theorem parseLevel_a (r : List Char) : parseLevel ('a' :: r) = some ("a", r) := rfl

theorem parseLevel_b (r : List Char) : parseLevel ('b' :: r) = some ("b", r) := rfl

theorem parseLevel_rc (r : List Char) : parseLevel ('r' :: 'c' :: r) = some ("rc", r) := rfl

theorem parseOptMMP_canonical (m p : Nat) (tail : List Char) (htail : headDigit tail = false) :
    parseOptMMP ('.' :: (natChars m ++ '.' :: (natChars p ++ tail))) =
      (some (natChars m), some (natChars p), tail) := by
  have h1 : spanDigits (natChars m ++ '.' :: (natChars p ++ tail)) =
      (natChars m, '.' :: (natChars p ++ tail)) :=
    spanDigits_append _ _ (natChars_digits m) (by rfl)
  have h2 : spanDigits (natChars p ++ tail) = (natChars p, tail) :=
    spanDigits_append _ _ (natChars_digits p) htail
  simp only [parseOptMMP, h1, h2]
  rw [if_neg (by simpa using natChars_ne_nil m), if_neg (by simpa using natChars_ne_nil p)]

theorem parseOptLS_canonical (lv : String) (sr : Nat)
    (hlv : lv = "a" ∨ lv = "b" ∨ lv = "rc") :
    parseOptLS (lv.data ++ natChars sr) = (some (lv, natChars sr), []) := by
  rcases hlv with rfl | rfl | rfl
  · show parseOptLS ('a' :: natChars sr) = _
    simp only [parseOptLS, parseLevel_a, spanDigits_natChars]
    rw [if_neg (by simpa using natChars_ne_nil sr)]
  · show parseOptLS ('b' :: natChars sr) = _
    simp only [parseOptLS, parseLevel_b, spanDigits_natChars]
    rw [if_neg (by simpa using natChars_ne_nil sr)]
  · show parseOptLS ('r' :: 'c' :: natChars sr) = _
    simp only [parseOptLS, parseLevel_rc, spanDigits_natChars]
    rw [if_neg (by simpa using natChars_ne_nil sr)]

theorem tagMatch_canonical (M m p : Nat) (tail : List Char) (htail : headDigit tail = false) :
    tagMatch (natChars M ++ '.' :: (natChars m ++ '.' :: (natChars p ++ tail))) =
      (if atDollar (parseOptLS tail).2 then
        some ⟨natChars M, some (natChars m), some (natChars p), (parseOptLS tail).1⟩
      else none) := by
  have h0 : spanDigits (natChars M ++ '.' :: (natChars m ++ '.' :: (natChars p ++ tail))) =
      (natChars M, '.' :: (natChars m ++ '.' :: (natChars p ++ tail))) :=
    spanDigits_append _ _ (natChars_digits M) (by rfl)
  simp only [tagMatch, h0]
  rw [if_neg (by simpa using natChars_ne_nil M)]
  simp only [parseOptMMP_canonical m p tail htail]

theorem tagMatch_final (M m p : Nat) :
    tagMatch (natChars M ++ '.' :: (natChars m ++ '.' :: natChars p)) =
      some ⟨natChars M, some (natChars m), some (natChars p), none⟩ := by
  have h := tagMatch_canonical M m p [] rfl
  simpa [parseOptLS_nil, atDollar] using h

theorem tagMatch_pre (M m p sr : Nat) (lv : String)
    (hlv : lv = "a" ∨ lv = "b" ∨ lv = "rc") :
    tagMatch (natChars M ++ '.' :: (natChars m ++ '.' :: (natChars p ++ (lv.data ++ natChars sr)))) =
      some ⟨natChars M, some (natChars m), some (natChars p), some (lv, natChars sr)⟩ := by
  have hhd : headDigit (lv.data ++ natChars sr) = false := by
    rcases hlv with rfl | rfl | rfl <;> rfl
  have h := tagMatch_canonical M m p _ hhd
  rw [h, parseOptLS_canonical lv sr hlv]
  rfl

theorem parseLevel_values (r r3 : List Char) (lv : String)
    (h : parseLevel r = some (lv, r3)) : lv = "a" ∨ lv = "b" ∨ lv = "rc" := by
  cases r with
  | nil => simp [parseLevel] at h
  | cons c r1 =>
    by_cases hca : c = 'a'
    · subst hca
      rw [parseLevel_a, Option.some.injEq, Prod.mk.injEq] at h
      exact Or.inl h.1.symm
    · by_cases hcb : c = 'b'
      · subst hcb
        rw [parseLevel_b, Option.some.injEq, Prod.mk.injEq] at h
        exact Or.inr (Or.inl h.1.symm)
      · by_cases hcr : c = 'r'
        · subst hcr
          cases r1 with
          | nil => simp [parseLevel] at h
          | cons c2 r2 =>
            by_cases hc2 : c2 = 'c'
            · subst hc2
              rw [parseLevel_rc, Option.some.injEq, Prod.mk.injEq] at h
              exact Or.inr (Or.inr h.1.symm)
            · simp [parseLevel, hc2] at h
        · simp [parseLevel, hca, hcb, hcr] at h

theorem parseOptLS_shape (r : List Char) :
    (parseOptLS r).1 = none ∨
      ∃ lv d, (parseOptLS r).1 = some (lv, d) ∧ (lv = "a" ∨ lv = "b" ∨ lv = "rc") := by
  rcases hpl : parseLevel r with _ | ⟨lv, r3⟩
  · left
    simp [parseOptLS, hpl]
  · simp only [parseOptLS, hpl]
    split_ifs with hsp
    · left; rfl
    · right
      exact ⟨lv, (spanDigits r3).1, rfl, parseLevel_values r r3 lv hpl⟩

theorem tagMatch_g34_shape (s : List Char) (g : RawGroups) (h : tagMatch s = some g) :
    g.g34 = none ∨
      ∃ lv d, g.g34 = some (lv, d) ∧ (lv = "a" ∨ lv = "b" ∨ lv = "rc") := by
  simp only [tagMatch] at h
  by_cases h1 : (spanDigits s).1 = []
  · rw [if_pos h1] at h
    exact absurd h (by simp)
  · rw [if_neg h1] at h
    by_cases h2 : atDollar (parseOptLS (parseOptMMP (spanDigits s).2).2.2).2 = true
    · rw [if_pos h2, Option.some.injEq] at h
      subst h
      exact parseOptLS_shape _
    · rw [if_neg h2] at h
      exact absurd h (by simp)

/-- Claim C1: for every accepted input, re-parsing the rendered canonical
    text yields the very same release identifier (idempotent
    normalization). -/
theorem tag_text_roundtrip (s : String) (t : Tag) (h : parseTag s = some t) :
    parseTag t.text = some t := by
  rw [parseTag] at h
  obtain ⟨g, hg, rfl⟩ := Option.map_eq_some'.mp h
  rw [parseTag]
  rcases tagMatch_g34_shape s.data g hg with h34 | ⟨lv, d, h34, hlv⟩
  · have htext : (Tag.ofGroups g).text.data =
        natChars (digitsVal g.g0) ++ '.' :: (natChars (optVal g.g1) ++ '.' ::
          natChars (optVal g.g2)) := by
      simp [Tag.ofGroups, h34, levelOf, data_append, natStr_data, dot_data, empty_data]
    rw [htext, tagMatch_final]
    simp only [Option.map_some', Option.some.injEq]
    simp [Tag.ofGroups, h34, optVal, levelOf, serialOf, finalOf, digitsVal_natChars]
  · have hlvf : lv ≠ "f" := by rcases hlv with rfl | rfl | rfl <;> decide
    have htext : (Tag.ofGroups g).text.data =
        natChars (digitsVal g.g0) ++ '.' :: (natChars (optVal g.g1) ++ '.' ::
          (natChars (optVal g.g2) ++ (lv.data ++ natChars (serialOf g.g34)))) := by
      simp [Tag.ofGroups, h34, levelOf, hlvf, data_append, natStr_data, dot_data,
        empty_data, serialOf]
    rw [htext, tagMatch_pre _ _ _ _ lv hlv]
    simp only [Option.map_some', Option.some.injEq]
    simp [Tag.ofGroups, h34, optVal, levelOf, serialOf, finalOf, digitsVal_natChars, hlvf]


/-- Concrete instance discharging the hypothesis of tag_text_roundtrip. -/
theorem tag_text_roundtrip_instance :
    parseTag "3.9.0a2" = some
      { major := 3, minor := 9, patch := 0, level := "a", serial := 2,
        is_final := false, text := "3.9.0a2", basic_version := "3.9" } ∧
    parseTag (Tag.text
      { major := 3, minor := 9, patch := 0, level := "a", serial := 2,
        is_final := false, text := "3.9.0a2", basic_version := "3.9" }) = some
      { major := 3, minor := 9, patch := 0, level := "a", serial := 2,
        is_final := false, text := "3.9.0a2", basic_version := "3.9" } :=
  ⟨by decide, tag_text_roundtrip "3.9.0a2" _ (by decide)⟩

/-- Claim C5: an input that the version-tag pattern rejects makes tag
    construction fail through the error helper: the error stream starts with
    the fixed banner, a further line names the offending string, the exit
    status is non-zero, and no release identifier is produced. -/
theorem tag_invalid_fails (cwdBase s : String) (h1 : s ≠ ".")
    (h2 : tagMatch s.data = none) :
    tagInit cwdBase s = Except.error
      { stderrLines := ["**ERROR**", "tag " ++ s ++ " is not valid"], exitCode := 1 } ∧
    (∀ t : Tag, tagInit cwdBase s ≠ Except.ok t) := by
  have hname : (if s = "." then cwdBase else s) = s := if_neg h1
  have hmain : tagInit cwdBase s = Except.error
      { stderrLines := ["**ERROR**", "tag " ++ s ++ " is not valid"], exitCode := 1 } := by
    simp only [tagInit, hname, h2, error]
  exact ⟨hmain, fun t ht => by rw [hmain] at ht; exact Except.noConfusion ht⟩

/-- Concrete instance discharging the hypotheses of tag_invalid_fails. -/
theorem tag_invalid_fails_instance :
    tagInit "cwd" "vX.Y" = Except.error
      { stderrLines := ["**ERROR**", "tag vX.Y is not valid"], exitCode := 1 } :=
  (tag_invalid_fails "cwd" "vX.Y" (by decide) (by decide)).1

/-- Claim C6: absent minor, patch and serial groups default to zero and an
    absent level group defaults to final; in particular parsing the single
    digit 3 yields major 3, minor 0, patch 0, final level, serial 0 and
    canonical text 3.0.0. -/
theorem tag_defaults :
    (∀ g : RawGroups,
      (g.g1 = none → (Tag.ofGroups g).minor = 0) ∧
      (g.g2 = none → (Tag.ofGroups g).patch = 0) ∧
      (g.g34 = none → (Tag.ofGroups g).level = "f" ∧ (Tag.ofGroups g).serial = 0 ∧
        (Tag.ofGroups g).is_final = true)) ∧
    parseTag "3" = some
      { major := 3, minor := 0, patch := 0, level := "f", serial := 0,
        is_final := true, text := "3.0.0", basic_version := "3.0" } := by
  constructor
  · intro g
    refine ⟨fun h => ?_, fun h => ?_, fun h => ?_⟩ <;>
      simp [Tag.ofGroups, h, optVal, levelOf, serialOf, finalOf]
  · decide

/-- Concrete instance discharging the hypotheses inside tag_defaults. -/
theorem tag_defaults_instance :
    (Tag.ofGroups ⟨['3'], none, none, none⟩).minor = 0 ∧
    (Tag.ofGroups ⟨['3'], none, none, none⟩).patch = 0 ∧
    (Tag.ofGroups ⟨['3'], none, none, none⟩).level = "f" ∧
    (Tag.ofGroups ⟨['3'], none, none, none⟩).serial = 0 ∧
    (Tag.ofGroups ⟨['3'], none, none, none⟩).is_final = true :=
  ⟨(tag_defaults.1 ⟨['3'], none, none, none⟩).1 rfl,
   (tag_defaults.1 ⟨['3'], none, none, none⟩).2.1 rfl,
   ((tag_defaults.1 ⟨['3'], none, none, none⟩).2.2 rfl).1,
   ((tag_defaults.1 ⟨['3'], none, none, none⟩).2.2 rfl).2.1,
   ((tag_defaults.1 ⟨['3'], none, none, none⟩).2.2 rfl).2.2⟩

/-- Claim C7: the derived projections: the canonical text is
    major.minor.patch with the level code and serial appended exactly when
    the level is not final, the nickname is the text with the dots removed,
    and the basic version is major.minor; with the spec's two concrete
    examples. -/
theorem tag_projections :
    (∀ s : String, ∀ t : Tag, parseTag s = some t →
      t.text = natStr t.major ++ "." ++ natStr t.minor ++ "." ++ natStr t.patch ++
        (if t.level = "f" then "" else t.level ++ natStr t.serial) ∧
      t.nickname = String.mk (t.text.data.filter (fun c => c ≠ '.')) ∧
      t.basic_version = natStr t.major ++ "." ++ natStr t.minor) ∧
    parseTag "3.9.0a2" = some
      { major := 3, minor := 9, patch := 0, level := "a", serial := 2,
        is_final := false, text := "3.9.0a2", basic_version := "3.9" } ∧
    parseTag "2.7.18" = some
      { major := 2, minor := 7, patch := 18, level := "f", serial := 0,
        is_final := true, text := "2.7.18", basic_version := "2.7" } ∧
    Tag.nickname
      { major := 2, minor := 7, patch := 18, level := "f", serial := 0,
        is_final := true, text := "2.7.18", basic_version := "2.7" } = "2718" ∧
    Tag.nickname
      { major := 3, minor := 9, patch := 0, level := "a", serial := 2,
        is_final := false, text := "3.9.0a2", basic_version := "3.9" } = "390a2" := by
  refine ⟨?_, by decide, by decide, by decide, by decide⟩
  intro s t h
  rw [parseTag] at h
  obtain ⟨g, hg, rfl⟩ := Option.map_eq_some'.mp h
  exact ⟨rfl, rfl, rfl⟩

/-- Concrete instance discharging the hypothesis inside tag_projections. -/
theorem tag_projections_instance :
    Tag.basic_version
      { major := 2, minor := 7, patch := 18, level := "f", serial := 0,
        is_final := true, text := "2.7.18", basic_version := "2.7" } =
      natStr 2 ++ "." ++ natStr 7 :=
  (tag_projections.1 "2.7.18" _ (by decide)).2.2

/-! ### Patcher lemmas -/

theorem startTag_ne_nil (cs ce : List Char) : startTag cs ce ≠ [] := by
  intro h
  have hlen := congrArg List.length h
  have h19 : ("--start constants--").data.length = 19 := rfl
  simp only [startTag, List.length_append, h19, List.length_nil] at hlen
  omega

theorem startTag_ne_endTag (cs ce : List Char) : startTag cs ce ≠ endTag cs ce := by
  intro h
  have hlen := congrArg List.length h
  have h19 : ("--start constants--").data.length = 19 := rfl
  have h17 : ("--end constants--").data.length = 17 := rfl
  simp only [startTag, endTag, List.length_append, h19, h17] at hlen
  omega

theorem dropLast_ne_self (l : List Char) (h : l ≠ []) : l.dropLast ≠ l := by
  intro he
  have hlen := congrArg List.length he
  rw [List.length_dropLast] at hlen
  have : l.length ≠ 0 := fun h0 => h (List.eq_nil_of_length_eq_zero h0)
  omega

theorem FS.update_self (fs : FS) (p : String) (v : Option (List Char)) :
    FS.update fs p v p = v := by
  simp [FS.update]

theorem FS.update_ne (fs : FS) (p : String) (v : Option (List Char)) (q : String)
    (h : q ≠ p) : FS.update fs p v q = fs q := by
  simp [FS.update, h]

theorem self_ne_append_new (fn : String) : fn ≠ fn ++ ".new" := by
  intro h
  have hd := congrArg (fun s : String => s.data.length) h
  have h4 : (".new" : String).data.length = 4 := rfl
  simp only [data_append, List.length_append, h4] at hd
  omega

theorem pyLines_flatten (c : List Char) : (pyLines c).flatten = c := by
  induction c with
  | nil => rfl
  | cons ch r ih =>
    rw [pyLines]
    split_ifs with hch
    · subst hch
      simp [ih]
    · rcases hp : pyLines r with _ | ⟨l, ls⟩
     <;> rw [hp] at ih
      · simp at ih
        simp [ih]
      · simp only
        rw [List.flatten_cons] at ih ⊢
        simp [← ih]

theorem crLoop_copy (st et u : List Char) (ls rest : List (List Char)) (f : Bool)
    (acc : List Char) (h : ∀ l ∈ ls, l.dropLast ≠ st ∧ l.dropLast ≠ et) :
    crLoop st et u (ls ++ rest) f false acc =
      crLoop st et u rest f false (acc ++ ls.flatten) := by
  induction ls generalizing acc with
  | nil => simp
  | cons l ls' ih =>
    have h1 := (h l (by simp)).1
    have h2 := (h l (by simp)).2
    simp only [List.cons_append, crLoop, List.append_eq]
    rw [if_neg h1, if_neg h2, if_neg (by simp)]
    rw [ih _ (fun x hx => h x (by simp [hx]))]
    simp [List.append_assoc]

theorem crLoop_skip (st et u : List Char) (ls rest : List (List Char)) (f : Bool)
    (acc : List Char) (h : ∀ l ∈ ls, l.dropLast ≠ st ∧ l.dropLast ≠ et) :
    crLoop st et u (ls ++ rest) f true acc = crLoop st et u rest f true acc := by
  induction ls with
  | nil => simp
  | cons l ls' ih =>
    have h1 := (h l (by simp)).1
    have h2 := (h l (by simp)).2
    simp only [List.cons_append, crLoop, List.append_eq]
    rw [if_neg h1, if_neg h2]
    simp only [if_true]
    exact ih (fun x hx => h x (by simp [hx]))

theorem crLoop_found_false (st et u : List Char) (ls : List (List Char))
    (h : ∀ l ∈ ls, l.dropLast ≠ st) :
    ∀ w : Bool, ∀ acc : List Char, (crLoop st et u ls false w acc).2 = false := by
  induction ls with
  | nil => intro w acc; rfl
  | cons l ls' ih =>
    intro w acc
    have h1 := h l (by simp)
    have ih' := ih (fun x hx => h x (by simp [hx]))
    simp only [crLoop]
    rw [if_neg h1]
    split_ifs <;> exact ih' _ _

theorem crLoop_structured (cs ce u : List Char) (pre mid post : List (List Char))
    (sl el : List Char)
    (hsl : sl.dropLast = startTag cs ce) (hel : el.dropLast = endTag cs ce)
    (hpre : ∀ l ∈ pre, l.dropLast ≠ startTag cs ce ∧ l.dropLast ≠ endTag cs ce)
    (hmid : ∀ l ∈ mid, l.dropLast ≠ startTag cs ce ∧ l.dropLast ≠ endTag cs ce)
    (hpost : ∀ l ∈ post, l.dropLast ≠ startTag cs ce ∧ l.dropLast ≠ endTag cs ce) :
    crLoop (startTag cs ce) (endTag cs ce) u (pre ++ sl :: (mid ++ el :: post))
        false false [] =
      (pre.flatten ++ (startTag cs ce ++ '\n' :: (u ++ '\n' :: (endTag cs ce ++ ['\n']))) ++
        post.flatten, true) := by
  rw [crLoop_copy _ _ _ pre _ _ _ hpre]
  simp only [crLoop]
  rw [if_pos hsl]
  rw [crLoop_skip _ _ _ mid _ _ _ hmid]
  simp only [crLoop]
  rw [if_neg (fun hx => startTag_ne_endTag cs ce (hx.symm.trans hel)), if_pos hel]
  rw [show post = post ++ [] by simp, crLoop_copy _ _ _ post _ _ _ hpost]
  simp [crLoop, List.append_assoc]

/-- Claim C2: on a file whose lines form a well-formed marker region, the
    patcher keeps every line before the start marker and after the end marker
    verbatim and in order, and replaces only the enclosed region. -/
theorem constant_replace_frame (content u cs ce : List Char)
    (pre mid post : List (List Char)) (sl el : List Char)
    (hlines : pyLines content = pre ++ sl :: (mid ++ el :: post))
    (hsl : sl.dropLast = startTag cs ce) (hel : el.dropLast = endTag cs ce)
    (hpre : ∀ l ∈ pre, l.dropLast ≠ startTag cs ce ∧ l.dropLast ≠ endTag cs ce)
    (hmid : ∀ l ∈ mid, l.dropLast ≠ startTag cs ce ∧ l.dropLast ≠ endTag cs ce)
    (hpost : ∀ l ∈ post, l.dropLast ≠ startTag cs ce ∧ l.dropLast ≠ endTag cs ce) :
    constant_replace_core content u cs ce =
      some (pre.flatten ++
        (startTag cs ce ++ '\n' :: (u ++ '\n' :: (endTag cs ce ++ ['\n']))) ++
        post.flatten) := by
  rw [constant_replace_core, hlines,
    crLoop_structured cs ce u pre mid post sl el hsl hel hpre hmid hpost]
  rfl

/-- Concrete instance discharging the hypotheses of constant_replace_frame. -/
theorem constant_replace_frame_instance :
    constant_replace_core
      ("A\n/*--start constants--*/\nOLD1\nOLD2\n/*--end constants--*/\nB\n".data)
      ("NEW".data) ("/*".data) ("*/".data) =
      some ("A\n/*--start constants--*/\nNEW\n/*--end constants--*/\nB\n".data) := by
  have h := constant_replace_frame
    ("A\n/*--start constants--*/\nOLD1\nOLD2\n/*--end constants--*/\nB\n".data)
    ("NEW".data) ("/*".data) ("*/".data)
    [("A\n".data)] [("OLD1\n".data), ("OLD2\n".data)] [("B\n".data)]
    ("/*--start constants--*/\n".data) ("/*--end constants--*/\n".data)
    (by decide) (by decide) (by decide) (by decide) (by decide) (by decide)
  exact h.trans (by decide)

/-- Claim C3: when no line of the file matches the start marker, the patcher
    fails through the error helper with a MissingDelimiters message naming
    the file, and the original file content is unchanged. -/
theorem constant_replace_missing (fs : FS) (fn : String) (content u cs ce : List Char)
    (hfs : fs fn = some content)
    (hno : ∀ l ∈ pyLines content, l.dropLast ≠ startTag cs ce) :
    ∃ fs', constant_replace fs fn u cs ce =
        some (fs', some
          { stderrLines := ["**ERROR**", "Constant section delimiters not found: " ++ fn],
            exitCode := 1 }) ∧
      fs' fn = fs fn := by
  have hf := crLoop_found_false (startTag cs ce) (endTag cs ce) u (pyLines content)
    hno false []
  refine ⟨FS.update fs (fn ++ ".new")
    (some (crLoop (startTag cs ce) (endTag cs ce) u (pyLines content) false false []).1),
    ?_, ?_⟩
  · rw [constant_replace, hfs]
    simp only [hf, Bool.false_eq_true, if_false, error]
  · rw [FS.update_ne fs (fn ++ ".new") _ fn (self_ne_append_new fn)]

/-- Concrete instance discharging the hypotheses of constant_replace_missing. -/
theorem constant_replace_missing_instance :
    ∃ fs', constant_replace (FS.update (fun _ => none) "f.c" (some ("x\ny\n".data)))
        "f.c" ("NEW".data) ("/*".data) ("*/".data) =
        some (fs', some
          { stderrLines := ["**ERROR**", "Constant section delimiters not found: f.c"],
            exitCode := 1 }) ∧
      fs' "f.c" = some ("x\ny\n".data) := by
  obtain ⟨fs', h1, h2⟩ := constant_replace_missing
    (FS.update (fun _ => none) "f.c" (some ("x\ny\n".data))) "f.c"
    ("x\ny\n".data) ("NEW".data) ("/*".data) ("*/".data)
    (by decide) (by decide)
  exact ⟨fs', h1, by rw [h2]; decide⟩

/-- Claim C4 counterexample: a failing invocation of the patcher creates a
    file at the sibling path with suffix .new, where no file existed before,
    and leaves it behind; so it is false that no file at any other path is
    ever created or left behind. -/
theorem constant_replace_creates_sibling :
    fsExample "f.c.new" = none ∧
    (constant_replace fsExample "f.c" ("U".data) ("/*".data) ("*/".data)).map
      (fun r => (r.1 "f.c.new", r.2.isSome)) = some (some ("x\n".data), true) := by
  decide

/-- Claim C4 as amended: an invocation touches no path other than the target
    file and its sibling with suffix .new; on success, if no file pre-exists
    at the sibling path, only the target differs afterwards; on failure the
    target itself is unchanged. -/
theorem constant_replace_touches_only_target (fs : FS) (fn : String)
    (content u cs ce : List Char) (hfs : fs fn = some content) :
    ∃ r, constant_replace fs fn u cs ce = some r ∧
      (∀ p, p ≠ fn → p ≠ fn ++ ".new" → r.1 p = fs p) ∧
      (r.2 = none → fs (fn ++ ".new") = none → ∀ p, p ≠ fn → r.1 p = fs p) ∧
      (r.2.isSome → r.1 fn = fs fn) := by
  rw [constant_replace, hfs]
  simp only
  split_ifs with hf
  · refine ⟨_, rfl, ?_, ?_, ?_⟩
    · intro p hp1 hp2
      dsimp only
      rw [FS.update_ne _ _ _ _ hp2, FS.update_ne _ _ _ _ hp1,
        FS.update_ne _ _ _ _ hp2]
    · intro _ hnew p hp1
      dsimp only
      by_cases hp2 : p = fn ++ ".new"
      · subst hp2
        rw [FS.update_self, hnew]
      · rw [FS.update_ne _ _ _ _ hp2, FS.update_ne _ _ _ _ hp1,
          FS.update_ne _ _ _ _ hp2]
    · intro hs
      simp at hs
  · refine ⟨_, rfl, ?_, ?_, ?_⟩
    · intro p _ hp2
      dsimp only
      exact FS.update_ne _ _ _ _ hp2
    · intro hn
      simp at hn
    · intro _
      dsimp only
      rw [FS.update_ne _ _ _ _ (self_ne_append_new fn)]
      exact hfs

/-- Concrete instance discharging the hypothesis of
    constant_replace_touches_only_target. -/
theorem constant_replace_touches_only_target_instance :
    ∃ r, constant_replace fsExample2 "g.c" ("NEW".data) ("/*".data) ("*/".data) =
        some r ∧ r.1 "other.txt" = fsExample2 "other.txt" := by
  obtain ⟨r, h1, h2, h3, h4⟩ := constant_replace_touches_only_target fsExample2 "g.c"
    ("A\n/*--start constants--*/\nOLD\n/*--end constants--*/\nB\n".data)
    ("NEW".data) ("/*".data) ("*/".data) (by decide)
  exact ⟨r, h1, h2 "other.txt" (by decide) (by decide)⟩

/-- Claim C10: marker recognition removes the final character of each line
    unconditionally, so a start-marker line that ends the file without a
    trailing newline is not recognized: the marker text is present as a
    suffix of the content, yet the patch fails with the MissingDelimiters
    error and the original file is unchanged. -/
theorem marker_needs_trailing_char (fs : FS) (fn : String) (pre : List (List Char))
    (content u cs ce : List Char)
    (hfs : fs fn = some content)
    (hlines : pyLines content = pre ++ [startTag cs ce])
    (hpre : ∀ l ∈ pre, l.dropLast ≠ startTag cs ce) :
    content = pre.flatten ++ startTag cs ce ∧
    ∃ fs', constant_replace fs fn u cs ce =
        some (fs', some
          { stderrLines := ["**ERROR**", "Constant section delimiters not found: " ++ fn],
            exitCode := 1 }) ∧
      fs' fn = fs fn := by
  constructor
  · have h := congrArg List.flatten hlines
    rw [pyLines_flatten] at h
    simpa using h
  · refine constant_replace_missing fs fn content u cs ce hfs ?_
    rw [hlines]
    intro l hl
    rcases List.mem_append.mp hl with h1 | h1
    · exact hpre l h1
    · rcases List.mem_singleton.mp h1 with rfl
      exact dropLast_ne_self _ (startTag_ne_nil cs ce)

/-- Concrete instance discharging the hypotheses of
    marker_needs_trailing_char. -/
theorem marker_needs_trailing_char_instance :
    ("x\n/*--start constants--*/".data : List Char) =
      ([("x\n".data)] : List (List Char)).flatten ++ startTag ("/*".data) ("*/".data) ∧
    ∃ fs', constant_replace fsExample3 "h.c" ("U".data) ("/*".data) ("*/".data) =
        some (fs', some
          { stderrLines := ["**ERROR**", "Constant section delimiters not found: h.c"],
            exitCode := 1 }) ∧
      fs' "h.c" = fsExample3 "h.c" :=
  marker_needs_trailing_char fsExample3 "h.c" [("x\n".data)]
    ("x\n/*--start constants--*/".data) ("U".data) ("/*".data) ("*/".data)
    (by decide) (by decide) (by decide)

/-- Claim C9: after the scoped-directory helper finishes, the current
    working directory equals the one current before it, whatever the body
    did to the state and however it exited. -/
theorem changed_dir_restores (new : String) (body : PState → PState × ExitPath)
    (s : PState) :
    ((changed_dir new body s).1).cwd = s.cwd ∧
    (changed_dir new body s).2 = (body (os_chdir new s)).2 := by
  simp [changed_dir, os_chdir, os_getcwd]

theorem pyLines_ne_nil (c : List Char) (h : c ≠ []) : pyLines c ≠ [] := by
  cases c with
  | nil => exact absurd rfl h
  | cons ch r =>
    rw [pyLines]
    split_ifs
    · simp
    · rcases hp : pyLines r with _ | ⟨l, ls⟩ <;> simp

theorem pyLines_mem (c : List Char) :
    ∀ l ∈ pyLines c, l ≠ [] ∧ '\n' ∉ l.dropLast := by
  induction c with
  | nil => intro l hl; simp [pyLines] at hl
  | cons ch r ih =>
    intro l hl
    rw [pyLines] at hl
    split_ifs at hl with hch
    · rcases List.mem_cons.mp hl with rfl | h1
      · simp
      · exact ih l h1
    · rcases hp : pyLines r with _ | ⟨l0, ls⟩ <;> rw [hp] at hl
      · rcases List.mem_singleton.mp hl with rfl
        simp
      · rcases List.mem_cons.mp hl with rfl | h1
        · have h0 := (ih l0 (by rw [hp]; simp)).1
          have h2 := (ih l0 (by rw [hp]; simp)).2
          refine ⟨by simp, ?_⟩
          rcases List.exists_cons_of_ne_nil h0 with ⟨y, l0squote, rfl⟩
          simp only [List.dropLast_cons₂, List.mem_cons, not_or]
          exact ⟨fun he => hch he.symm, h2⟩
        · exact ih l (by rw [hp]; exact List.mem_cons_of_mem l0 h1)

theorem pyLines_dropLast_ends (c : List Char) :
    ∀ l ∈ (pyLines c).dropLast, l.getLast? = some '\n' := by
  induction c with
  | nil => intro l hl; simp [pyLines] at hl
  | cons ch r ih =>
    intro l hl
    rw [pyLines] at hl
    split_ifs at hl with hch
    · rcases hp : pyLines r with _ | ⟨l0, ls⟩ <;> rw [hp] at hl
      · simp at hl
      · rw [List.dropLast_cons₂] at hl
        rcases List.mem_cons.mp hl with rfl | h1
        · rfl
        · exact ih l (by rw [hp]; exact h1)
    · rcases hp : pyLines r with _ | ⟨l0, ls⟩ <;> rw [hp] at hl
      · simp at hl
      · cases ls with
        | nil => simp at hl
        | cons l1 ls1 =>
          rw [List.dropLast_cons₂] at hl
          rcases List.mem_cons.mp hl with rfl | h1
          · have he := ih l0 (by rw [hp]; simp [List.dropLast_cons₂])
            have h0 := (pyLines_mem r l0 (by rw [hp]; simp)).1
            rw [List.getLast?_cons, he]
            rfl
          · exact ih l (by rw [hp]; rw [List.dropLast_cons₂]; exact List.mem_cons_of_mem l0 h1)

theorem pyLines_cons_line (l rest : List Char) (h1 : '\n' ∉ l.dropLast)
    (h2 : l.getLast? = some '\n') : pyLines (l ++ rest) = l :: pyLines rest := by
  induction l with
  | nil => simp at h2
  | cons c l' ih =>
    cases l' with
    | nil =>
      have hc : c = '\n' := by simpa using h2
      subst hc
      rw [List.singleton_append, pyLines, if_pos rfl]
    | cons c2 l2 =>
      have hc : ¬ c = '\n' := by
        intro he
        exact h1 (by rw [List.dropLast_cons₂]; simp [he])
      have h1' : '\n' ∉ (c2 :: l2).dropLast := by
        intro hm
        exact h1 (by rw [List.dropLast_cons₂]; exact List.mem_cons_of_mem c hm)
      have h2' : (c2 :: l2).getLast? = some '\n' := by
        rw [List.getLast?_cons_cons] at h2
        exact h2
      rw [List.cons_append, pyLines, if_neg hc, ih h1' h2']

theorem pyLines_no_newline (l : List Char) (h0 : l ≠ []) (h1 : '\n' ∉ l) :
    pyLines l = [l] := by
  induction l with
  | nil => exact absurd rfl h0
  | cons c l' ih =>
    have hc : ¬ c = '\n' := fun he => h1 (by simp [he])
    cases l' with
    | nil =>
      rw [pyLines, if_neg hc]
      rfl
    | cons c2 l2 =>
      rw [pyLines, if_neg hc, ih (by simp) (fun hm => h1 (List.mem_cons_of_mem c hm))]

theorem pyLines_append_lines (ls : List (List Char)) (rest : List Char)
    (hall : ∀ l ∈ ls, '\n' ∉ l.dropLast ∧ l.getLast? = some '\n') :
    pyLines (ls.flatten ++ rest) = ls ++ pyLines rest := by
  induction ls with
  | nil => simp
  | cons l ls' ih =>
    rw [List.flatten_cons, List.append_assoc,
      pyLines_cons_line l _ (hall l (by simp)).1 (hall l (by simp)).2,
      ih (fun x hx => hall x (by simp [hx]))]
    rfl

theorem pyLines_flatten_good (ls : List (List Char))
    (hall : ∀ l ∈ ls, l ≠ [] ∧ '\n' ∉ l.dropLast)
    (hlast : ∀ l ∈ ls.dropLast, l.getLast? = some '\n') :
    pyLines ls.flatten = ls := by
  induction ls with
  | nil => rfl
  | cons l ls' ih =>
    cases ls' with
    | nil =>
      simp only [List.flatten_cons, List.flatten_nil, List.append_nil]
      by_cases hnl : l.getLast? = some '\n'
      · have hcl := pyLines_cons_line l [] (hall l (by simp)).2 hnl
        simpa using hcl
      · refine pyLines_no_newline l (hall l (by simp)).1 ?_
        intro hm
        have hne := (hall l (by simp)).1
        rw [← List.dropLast_append_getLast hne] at hm
        rcases List.mem_append.mp hm with hA | hB
        · exact (hall l (by simp)).2 hA
        · rcases List.mem_singleton.mp hB with hB2
          exact hnl (by rw [List.getLast?_eq_getLast _ hne, ← hB2])
    | cons l1 ls1 =>
      rw [List.flatten_cons,
        pyLines_cons_line l _ (hall l (by simp)).2 (hlast l (by simp [List.dropLast_cons₂])),
        ih (fun x hx => hall x (by simp [hx]))
          (fun x hx => hlast x (by rw [List.dropLast_cons₂]; exact List.mem_cons_of_mem l hx))]

theorem pyLines_ends (c : List Char) (h : c.getLast? = some '\n') :
    ∀ l ∈ pyLines c, l.getLast? = some '\n' := by
  induction c with
  | nil => intro l hl; simp [pyLines] at hl
  | cons ch r ih =>
    intro l hl
    cases r with
    | nil =>
      have hch : ch = '\n' := by simpa using h
      subst hch
      rw [pyLines, if_pos rfl] at hl
      rcases List.mem_cons.mp hl with rfl | h1
      · rfl
      · simp [pyLines] at h1
    | cons c2 r2 =>
      have hr : (c2 :: r2).getLast? = some '\n' := by
        rw [List.getLast?_cons_cons] at h
        exact h
      rw [pyLines] at hl
      split_ifs at hl with hch
      · rcases List.mem_cons.mp hl with rfl | h1
        · rfl
        · exact ih hr l h1
      · rcases hp : pyLines (c2 :: r2) with _ | ⟨l0, ls⟩ <;> rw [hp] at hl
        · exact absurd hp (pyLines_ne_nil _ (by simp))
        · rcases List.mem_cons.mp hl with rfl | h1
          · have h0 := (pyLines_mem _ l0 (by rw [hp]; simp)).1
            have he := ih hr l0 (by rw [hp]; simp)
            rcases List.exists_cons_of_ne_nil h0 with ⟨y, l2, rfl⟩
            rw [List.getLast?_cons_cons]
            exact he
          · exact ih hr l (by rw [hp]; exact List.mem_cons_of_mem l0 h1)

theorem mem_dropLast_append_left (xs ys : List (List Char)) (l : List Char)
    (h1 : l ∈ xs) (h2 : ys ≠ []) : l ∈ (xs ++ ys).dropLast := by
  rw [List.dropLast_append_of_ne_nil xs h2]
  exact List.mem_append_left _ h1

theorem mem_dropLast_append_right (xs ys : List (List Char)) (l : List Char)
    (h : l ∈ ys.dropLast) : l ∈ (xs ++ ys).dropLast := by
  have hys : ys ≠ [] := by rintro rfl; simp at h
  rw [List.dropLast_append_of_ne_nil xs hys]
  exact List.mem_append_right _ h

theorem mem_dropLast_cons (x : List Char) (ys : List (List Char)) (l : List Char)
    (h : l ∈ ys.dropLast) : l ∈ (x :: ys).dropLast :=
  mem_dropLast_append_right [x] ys l h

/-- Claim C8: applying the patcher twice with the same replacement blob to a
    file with a well-formed marker region yields the same content as applying
    it once. -/
theorem constant_replace_idempotent (content u cs ce : List Char)
    (pre mid post : List (List Char)) (sl el : List Char)
    (hlines : pyLines content = pre ++ sl :: (mid ++ el :: post))
    (hsl : sl.dropLast = startTag cs ce) (hel : el.dropLast = endTag cs ce)
    (hpre : ∀ l ∈ pre, l.dropLast ≠ startTag cs ce ∧ l.dropLast ≠ endTag cs ce)
    (hmid : ∀ l ∈ mid, l.dropLast ≠ startTag cs ce ∧ l.dropLast ≠ endTag cs ce)
    (hpost : ∀ l ∈ post, l.dropLast ≠ startTag cs ce ∧ l.dropLast ≠ endTag cs ce)
    (hst : '\n' ∉ startTag cs ce) (het : '\n' ∉ endTag cs ce)
    (hupd : ∀ l ∈ pyLines (u ++ ['\n']),
      l.dropLast ≠ startTag cs ce ∧ l.dropLast ≠ endTag cs ce) :
    ∃ out, constant_replace_core content u cs ce = some out ∧
      constant_replace_core out u cs ce = some out := by
  have h1 : constant_replace_core content u cs ce =
      some (pre.flatten ++
        (startTag cs ce ++ '\n' :: (u ++ '\n' :: (endTag cs ce ++ ['\n']))) ++
        post.flatten) := by
    rw [constant_replace_core, hlines,
      crLoop_structured cs ce u pre mid post sl el hsl hel hpre hmid hpost]
    rfl
  refine ⟨_, h1, ?_⟩
  have hpreFull : ∀ l ∈ pre, '\n' ∉ l.dropLast ∧ l.getLast? = some '\n' := by
    intro l hl
    have hmem : l ∈ pyLines content := by
      rw [hlines]; exact List.mem_append_left _ hl
    refine ⟨(pyLines_mem content l hmem).2, ?_⟩
    apply pyLines_dropLast_ends content
    rw [hlines]
    exact mem_dropLast_append_left pre _ l hl (by simp)
  have hulines : ∀ l ∈ pyLines (u ++ ['\n']), '\n' ∉ l.dropLast ∧ l.getLast? = some '\n' := by
    intro l hl
    exact ⟨(pyLines_mem _ l hl).2,
      pyLines_ends _ (by rw [List.getLast?_concat]) l hl⟩
  have hpostGood1 : ∀ l ∈ post, l ≠ [] ∧ '\n' ∉ l.dropLast := by
    intro l hl
    exact pyLines_mem content l (by rw [hlines]; simp [hl])
  have hpostGood2 : ∀ l ∈ post.dropLast, l.getLast? = some '\n' := by
    intro l hl
    apply pyLines_dropLast_ends content
    rw [hlines]
    exact mem_dropLast_append_right pre _ l (mem_dropLast_cons sl _ l
      (mem_dropLast_append_right mid _ l (mem_dropLast_cons el _ l hl)))
  have hout : pyLines (pre.flatten ++
      (startTag cs ce ++ '\n' :: (u ++ '\n' :: (endTag cs ce ++ ['\n']))) ++
      post.flatten) =
      pre ++ (startTag cs ce ++ ['\n']) :: (pyLines (u ++ ['\n']) ++
        (endTag cs ce ++ ['\n']) :: post) := by
    rw [List.append_assoc, pyLines_append_lines pre _ hpreFull]
    congr 1
    have e1 : (startTag cs ce ++ '\n' :: (u ++ '\n' :: (endTag cs ce ++ ['\n']))) ++
        post.flatten =
        (startTag cs ce ++ ['\n']) ++ ((u ++ ['\n']) ++
          ((endTag cs ce ++ ['\n']) ++ post.flatten)) := by
      simp [List.append_assoc]
    rw [e1, pyLines_cons_line (startTag cs ce ++ ['\n']) _
      (by rw [List.dropLast_concat]; exact hst) (List.getLast?_concat _)]
    congr 1
    rw [show (u ++ ['\n']) ++ ((endTag cs ce ++ ['\n']) ++ post.flatten) =
        (pyLines (u ++ ['\n'])).flatten ++ ((endTag cs ce ++ ['\n']) ++ post.flatten) by
      rw [pyLines_flatten]]
    rw [pyLines_append_lines _ _ hulines]
    congr 1
    rw [pyLines_cons_line (endTag cs ce ++ ['\n']) _
      (by rw [List.dropLast_concat]; exact het) (List.getLast?_concat _)]
    congr 1
    exact pyLines_flatten_good post hpostGood1 hpostGood2
  rw [constant_replace_core, hout,
    crLoop_structured cs ce u pre (pyLines (u ++ ['\n'])) post
      (startTag cs ce ++ ['\n']) (endTag cs ce ++ ['\n'])
      (by rw [List.dropLast_concat]) (by rw [List.dropLast_concat]) hpre hupd hpost]
  rfl

/-- Concrete instance discharging the hypotheses of
    constant_replace_idempotent. -/
theorem constant_replace_idempotent_instance :
    ∃ out, constant_replace_core
      ("A\n/*--start constants--*/\nOLD1\nOLD2\n/*--end constants--*/\nB\n".data)
      ("NEW".data) ("/*".data) ("*/".data) = some out ∧
      constant_replace_core out ("NEW".data) ("/*".data) ("*/".data) = some out :=
  constant_replace_idempotent
    ("A\n/*--start constants--*/\nOLD1\nOLD2\n/*--end constants--*/\nB\n".data)
    ("NEW".data) ("/*".data) ("*/".data)
    [("A\n".data)] [("OLD1\n".data), ("OLD2\n".data)] [("B\n".data)]
    ("/*--start constants--*/\n".data) ("/*--end constants--*/\n".data)
    (by decide) (by decide) (by decide) (by decide) (by decide) (by decide)
    (by decide) (by decide) (by decide)

end Release
